import Mathlib

/-
Verification of the cycling-characters animation core (cyclingchars.go).

Shallow embedding conventions:
  - Go `time.Time` and `time.Duration` are modelled as `Int` nanoseconds
    (`now.Before t` is `<`, `now.After t` is `>`, `t.Add d` is `+`).
  - Go runes are modelled as `Int` where a sentinel value `-1` occurs
    (`cyclingChar.finalValue`), and as Lean `Char` where they come from a
    Go string (Go `[]rune(s)` is a list of Unicode scalar values).
  - `rand.Intn n` / `rand.Int31n n` draws are modelled by oracle arguments
    (`Fin n`-valued functions); `rand.Intn n` is uniform over `Fin n`.
  - `time.Now()` inside one tick handler is modelled as a single instant
    passed to the tick step.
  - Go panics (negative `make` length, out-of-range slice index) are
    modelled by `Option`, `none` meaning the operation panics.
  - 64-bit platform: Go `int` and `uint` are 64 bits wide.
-/

namespace Mods

/-- charRunes, the fixed alphabet of the random cycling glyphs
(`[]rune("0123456789abcdefABCDEF~!@#\x24£€%^&*()+=_")`). -/
def charRunes : List Char := "0123456789abcdefABCDEF~!@#$£€%^&*()+=_".toList

/-- charRuneInts: the alphabet as rune code points (`Int`), the type used for
`cyclingChar.currentValue`. -/
def charRuneInts : List Int := charRunes.map (fun c => (c.toNat : Int))

/-- maxCyclingChars constant from the source. -/
def maxCyclingChars : Int := 120

/-- MILLISECOND: `time.Millisecond` in nanoseconds. -/
def MILLISECOND : Int := 1000000

/-- charState: the three lifecycle states of a character. -/
inductive charState where
  | charInitialState : charState
  | charCyclingState : charState
  | charEndOfLifeState : charState
deriving DecidableEq

export charState (charInitialState charCyclingState charEndOfLifeState)

/-- cyclingChar: a single animated character. `finalValue < 0` means
"cycle forever" (the constructor uses the sentinel `-1`). -/
structure cyclingChar where
  finalValue : Int
  currentValue : Int
  initialDelay : Int
  lifetime : Int
deriving DecidableEq

/-- randomRune: `charRunes[rand.Intn(len(charRunes))]`, with the uniform
draw of `rand.Intn` supplied as the oracle argument `k`. -/
def randomRune (k : Fin charRunes.length) : Int :=
  ((charRunes.get k).toNat : Int)

/-- state: the lifecycle state of a character at instant `now`, with shared
start instant `start` (Go `cyclingChar.state`). -/
def state (ch : cyclingChar) (start now : Int) : charState :=
  if now < start + ch.initialDelay then charInitialState
  else if 0 < ch.finalValue ∧ start + ch.initialDelay < now then charEndOfLifeState
  else charCyclingState

/-- updateChar: the per-character body of the `stepCharsMsg` loop in
`cyclingChars.Update`: recompute `currentValue` from the state. -/
def updateChar (start now : Int) (k : Fin charRunes.length) (ch : cyclingChar) : cyclingChar :=
  match state ch start now with
  | charInitialState => { ch with currentValue := ('.'.toNat : Int) }
  | charCyclingState => { ch with currentValue := randomRune k }
  | charEndOfLifeState => { ch with currentValue := ch.finalValue }

/-- runChar: a single character driven through a list of ticks, each tick
carrying its instant and its random draw. -/
def runChar (start : Int) : cyclingChar → List (Int × Fin charRunes.length) → cyclingChar
  | ch, [] => ch
  | ch, t :: ts => runChar start (updateChar start t.1 t.2 ch) ts

/-- drawCount v: how many of the equiprobable outcomes of
`rand.Intn (len charRunes)` make `randomRune` produce `v`. -/
def drawCount (v : Int) : ℕ :=
  (List.range charRunes.length).countP (fun i => decide (charRuneInts.getD i 0 = v))

theorem updateChar_finalValue (start now : Int) (k : Fin charRunes.length) (ch : cyclingChar) :
    (updateChar start now k ch).finalValue = ch.finalValue := by
  unfold updateChar
  cases state ch start now <;> rfl

theorem updateChar_initialDelay (start now : Int) (k : Fin charRunes.length) (ch : cyclingChar) :
    (updateChar start now k ch).initialDelay = ch.initialDelay := by
  unfold updateChar
  cases state ch start now <;> rfl

theorem updateChar_lifetime (start now : Int) (k : Fin charRunes.length) (ch : cyclingChar) :
    (updateChar start now k ch).lifetime = ch.lifetime := by
  unfold updateChar
  cases state ch start now <;> rfl

theorem state_congr {ch1 ch2 : cyclingChar} (start now : Int)
    (hf : ch1.finalValue = ch2.finalValue) (hd : ch1.initialDelay = ch2.initialDelay) :
    state ch1 start now = state ch2 start now := by
  unfold state
  rw [hf, hd]

theorem state_updateChar (start now : Int) (k : Fin charRunes.length) (ch : cyclingChar)
    (s2 n2 : Int) : state (updateChar start now k ch) s2 n2 = state ch s2 n2 :=
  state_congr s2 n2 (updateChar_finalValue start now k ch) (updateChar_initialDelay start now k ch)

theorem state_cycling_of_neg {ch : cyclingChar} {start now : Int}
    (hneg : ch.finalValue < 0) (hnow : ¬ now < start + ch.initialDelay) :
    state ch start now = charCyclingState := by
  unfold state
  rw [if_neg hnow, if_neg]
  rintro ⟨h1, _⟩
  omega

theorem state_ne_eol_of_neg {ch : cyclingChar} (start now : Int)
    (hneg : ch.finalValue < 0) : state ch start now ≠ charEndOfLifeState := by
  unfold state
  split
  · exact fun h => charState.noConfusion h
  · rw [if_neg]
    · exact fun h => charState.noConfusion h
    · rintro ⟨h1, _⟩
      omega

/-- kZ: a concrete random draw used by concrete evaluations. -/
def kZ : Fin charRunes.length := ⟨0, by decide⟩

/-- chNeg: a concrete cycle-forever character (sentinel `-1`, delay 5). -/
def chNeg : cyclingChar := { finalValue := -1, currentValue := 0, initialDelay := 5, lifetime := 0 }

/-- chNul: a concrete character whose present `finalValue` is the NUL rune 0. -/
def chNul : cyclingChar := { finalValue := 0, currentValue := 0, initialDelay := 5, lifetime := 3 }

/-- chA: a concrete label character for the rune 'A' (code point 65). -/
def chA : cyclingChar := { finalValue := 65, currentValue := 0, initialDelay := 5, lifetime := 3 }

/-- C1 counterexample: the fixed alphabet `charRunes` has 38 members, not 40,
so the claimed "fixed 40-character alphabet" does not match the code. -/
theorem c1_counterexample : charRunes.length = 38 ∧ charRunes.length ≠ 40 := by
  constructor <;> decide

/-- C1 (amended): for every character with `finalValue` absent (negative
sentinel) and elapsed time ≥ `initialDelay`, the value assigned on a tick is
`randomRune` of the uniform index draw, hence a member of the fixed
38-character alphabet; the alphabet has no duplicates and each member is
produced by exactly one of the 38 equiprobable index outcomes, so each member
is drawn with equal probability 1/38. -/
theorem c1_theorem :
    (∀ (ch : cyclingChar) (start now : Int) (k : Fin charRunes.length),
        ch.finalValue < 0 → ¬ now < start + ch.initialDelay →
        (updateChar start now k ch).currentValue ∈ charRuneInts)
    ∧ charRunes.length = 38
    ∧ charRuneInts.Nodup
    ∧ (∀ v ∈ charRuneInts, drawCount v = 1) := by
  refine ⟨?_, by decide, by decide, by decide⟩
  intro ch start now k hneg hnow
  have hs := state_cycling_of_neg hneg hnow
  unfold updateChar
  rw [hs]
  show randomRune k ∈ charRuneInts
  unfold randomRune charRuneInts
  exact List.mem_map_of_mem _ (charRunes.get_mem k.1 k.2)

/-- C1 witness: a concrete cycle-forever character at the boundary instant
`now = start + initialDelay` receives an alphabet member. -/
theorem c1_witness :
    chNeg.finalValue < 0
    ∧ ¬ (5 : Int) < 0 + chNeg.initialDelay
    ∧ (updateChar 0 5 kZ chNeg).currentValue ∈ charRuneInts := by
  refine ⟨by decide, by decide, ?_⟩
  exact c1_theorem.1 chNeg 0 5 kZ (by decide) (by decide)

/-- C2 counterexample: a character with `finalValue = 0` (the NUL rune, which
is "present": the cycle-forever sentinel is negative) and `initialDelay = 5`
is in Cycling state, not End-of-life, at `now = 10 > start + initialDelay`,
because the code tests `finalValue > 0`, not `finalValue >= 0`. -/
theorem c2_counterexample :
    (0 : Int) ≤ chNul.finalValue
    ∧ (0 : Int) + chNul.initialDelay < 10
    ∧ state chNul 0 10 ≠ charEndOfLifeState := by
  refine ⟨by decide, by decide, by decide⟩

/-- C2 (amended): for every character, the state is Initial whenever `now`
is before `start + initialDelay`; and whenever `finalValue` is positive
(present and nonzero — a present `finalValue` of 0, the NUL rune, never
reaches End-of-life) the state is End-of-life whenever `now` is after
`start + initialDelay`, for every value of `lifetime`: `lifetime` never
gates the transition. -/
theorem c2_theorem (ch : cyclingChar) (start now : Int) :
    (now < start + ch.initialDelay → state ch start now = charInitialState)
    ∧ (0 < ch.finalValue → start + ch.initialDelay < now →
        state ch start now = charEndOfLifeState)
    ∧ (∀ lt : Int, state { ch with lifetime := lt } start now = state ch start now) := by
  refine ⟨?_, ?_, ?_⟩
  · intro h
    unfold state
    rw [if_pos h]
  · intro hpos hafter
    unfold state
    rw [if_neg (by omega), if_pos ⟨hpos, hafter⟩]
  · intro lt
    exact state_congr start now rfl rfl

/-- C2 witness: a concrete label character (rune 'A', delay 5) is Initial at
`now = 2` and End-of-life at `now = 10`, with `lifetime` irrelevant. -/
theorem c2_witness :
    ((2 : Int) < 0 + chA.initialDelay ∧ state chA 0 2 = charInitialState)
    ∧ ((0 : Int) < chA.finalValue ∧ (0 : Int) + chA.initialDelay < 10
      ∧ state chA 0 10 = charEndOfLifeState) := by
  refine ⟨⟨by decide, ?_⟩, by decide, by decide, ?_⟩
  · exact (c2_theorem chA 0 2).1 (by decide)
  · exact (c2_theorem chA 0 10).2.1 (by decide) (by decide)

/-- C3 counterexample: a character with present `finalValue = 0` (NUL rune)
past its initial delay is assigned a random alphabet glyph on the tick, not
its `finalValue`: the claim fails for this present final value. -/
theorem c3_counterexample :
    (0 : Int) ≤ chNul.finalValue
    ∧ (0 : Int) + chNul.initialDelay < 10
    ∧ (updateChar 0 10 kZ chNul).currentValue ≠ chNul.finalValue := by
  refine ⟨by decide, by decide, by decide⟩

/-- C3 (amended): for every character with positive (present and nonzero)
`finalValue`, along any sequence of ticks all of whose instants are after
`start + initialDelay`, every tick of the sequence leaves `currentValue`
equal to `finalValue`: it never reverts to a random or placeholder glyph. -/
theorem c3_theorem (ch : cyclingChar) (start : Int)
    (ticks : List (Int × Fin charRunes.length))
    (hpos : 0 < ch.finalValue)
    (hafter : ∀ t ∈ ticks, start + ch.initialDelay < t.1) :
    ∀ i, i < ticks.length →
      (runChar start ch (ticks.take (i + 1))).currentValue = ch.finalValue := by
  induction ticks generalizing ch with
  | nil => intro i hi; exact absurd hi (by simp)
  | cons t ts ih =>
    intro i hi
    have hupd : updateChar start t.1 t.2 ch = { ch with currentValue := ch.finalValue } := by
      unfold updateChar
      rw [show state ch start t.1 = charEndOfLifeState from
        (c2_theorem ch start t.1).2.1 hpos (hafter t (by simp))]
    cases i with
    | zero =>
      show (runChar start (updateChar start t.1 t.2 ch) (ts.take 0)).currentValue = _
      rw [hupd]
      rfl
    | succ i' =>
      show (runChar start (updateChar start t.1 t.2 ch) (ts.take (i' + 1))).currentValue = _
      rw [hupd]
      have hafter' : ∀ u ∈ ts, start +
          ({ ch with currentValue := ch.finalValue } : cyclingChar).initialDelay < u.1 := by
        intro u hu
        exact hafter u (by simp [hu])
      have := ih { ch with currentValue := ch.finalValue } hpos hafter' i'
        (by simpa using hi)
      simpa using this

/-- C3 witness: a concrete character (rune 'A', delay 5) driven through two
ticks at instants 10 and 20 shows 'A' after each tick. -/
theorem c3_witness :
    (0 : Int) < chA.finalValue
    ∧ (runChar 0 chA
        (List.take 2 [((10 : Int), kZ), ((20 : Int), kZ)])).currentValue = chA.finalValue := by
  refine ⟨by decide, ?_⟩
  exact c3_theorem chA 0 [(10, kZ), (20, kZ)] (by decide) (by decide) 1 (by decide)

/-- cyclingChars: the animation controller. Rendering-only fields of the Go
struct (`ramp`, `ellipsis`, `styles`) belong to the external styling and
spinner collaborators and carry no animation state of their own; they are
omitted from the model. -/
structure cyclingChars where
  start : Int
  chars : List cyclingChar
  label : List Char
  ellipsisStarted : Bool
deriving DecidableEq

/-- intOfUint: the Go conversion `int(u)` for `u : uint` on a 64-bit
platform: values at or above 2^63 wrap around to negative. -/
def intOfUint (u : ℕ) : Int :=
  if u < 2 ^ 63 then (u : Int) else (u : Int) - 2 ^ 64

/-- clampChars: `n := int(initialCharsSize); if n > maxCyclingChars { n =
maxCyclingChars }` from `newCyclingChars`. -/
def clampChars (u : ℕ) : Int :=
  if intOfUint u > maxCyclingChars then maxCyclingChars else intOfUint u

/-- mkPlaceholder: the cycle-forever character built for position `i` of the
placeholder prefix: sentinel `finalValue = -1` and a random initial delay
`rand.Int31n(8) * (time.Millisecond * 60)` supplied by the oracle `kI`. -/
def mkPlaceholder (kI : ℕ → Fin 8) (i : ℕ) : cyclingChar :=
  { finalValue := -1, currentValue := 0,
    initialDelay := ((kI i).1 : Int) * (MILLISECOND * 60), lifetime := 0 }

/-- mkLabelChars: the characters built for the label runes, one per rune,
with `finalValue` the rune, a random initial delay, and a random lifetime
`rand.Int31n(5) * (time.Millisecond * 180)`. `base` offsets the delay oracle
to account for the draws already consumed by the placeholder loop. -/
def mkLabelChars (kI : ℕ → Fin 8) (kL : ℕ → Fin 5) (base : ℕ) :
    List Char → ℕ → List cyclingChar
  | [], _ => []
  | r :: rest, i =>
    { finalValue := (r.toNat : Int), currentValue := 0,
      initialDelay := ((kI (base + i)).1 : Int) * (MILLISECOND * 60),
      lifetime := ((kL i).1 : Int) * (MILLISECOND * 180) } :: mkLabelChars kI kL base rest (i + 1)

/-- newCyclingChars: construction of the controller. `none` models a Go
panic: `make([]cyclingChar, n+len(c.label))` panics when its length argument
is negative, and the label loop's first write `c.chars[i+n]` panics when `n`
is negative (the gap rune makes the label non-empty whenever `n ≠ 0`). -/
def newCyclingChars (initialCharsSize : ℕ) (label : List Char)
    (kI : ℕ → Fin 8) (kL : ℕ → Fin 5) (startTime : Int) : Option cyclingChars :=
  let n := clampChars initialCharsSize
  let lab := (if n = 0 then [] else [' ']) ++ label
  if n + (lab.length : Int) < 0 then none
  else if n < 0 then none
  else some
    { start := startTime
      chars := (List.range n.toNat).map (mkPlaceholder kI) ++ mkLabelChars kI kL n.toNat lab 0
      label := lab
      ellipsisStarted := false }

/-- countEOL: the `eol` counting loop of `cyclingChars.Update`. -/
def countEOL (cs : List cyclingChar) (start now : Int) : ℕ :=
  cs.countP (fun ch => decide (state ch start now = charEndOfLifeState))

/-- oracle8: a concrete delay oracle for concrete evaluations. -/
def oracle8 : ℕ → Fin 8 := fun _ => 0

/-- oracle5: a concrete lifetime oracle for concrete evaluations. -/
def oracle5 : ℕ → Fin 5 := fun _ => 0

theorem clampChars_of_lt {u : ℕ} (h : u < 2 ^ 63) :
    clampChars u = ((min u 120 : ℕ) : Int) := by
  unfold clampChars intOfUint maxCyclingChars
  rw [if_pos h]
  split_ifs with h1
  · have h2 : 120 < u := by exact_mod_cast h1
    rw [min_eq_right h2.le]
    norm_num
  · have h2 : u ≤ 120 := by
      have h3 := not_lt.mp h1
      exact_mod_cast h3
    rw [min_eq_left h2]

theorem length_mkLabelChars (kI : ℕ → Fin 8) (kL : ℕ → Fin 5) (base : ℕ)
    (l : List Char) (i : ℕ) : (mkLabelChars kI kL base l i).length = l.length := by
  induction l generalizing i with
  | nil => rfl
  | cons r rest ih => simp [mkLabelChars, ih]

theorem mem_mkLabelChars {kI : ℕ → Fin 8} {kL : ℕ → Fin 5} {base : ℕ}
    {l : List Char} {i : ℕ} {ch : cyclingChar}
    (h : ch ∈ mkLabelChars kI kL base l i) : 0 ≤ ch.finalValue := by
  induction l generalizing i with
  | nil => exact absurd h (by simp [mkLabelChars])
  | cons r rest ih =>
    rw [mkLabelChars, List.mem_cons] at h
    rcases h with h | h
    · rw [h]
      exact Int.natCast_nonneg r.toNat
    · exact ih h

theorem newCyclingChars_of_lt {u : ℕ} (h : u < 2 ^ 63) (label : List Char)
    (kI : ℕ → Fin 8) (kL : ℕ → Fin 5) (st : Int) :
    newCyclingChars u label kI kL st =
      some { start := st
             chars := (List.range (min u 120)).map (mkPlaceholder kI)
               ++ mkLabelChars kI kL (min u 120) ((if u = 0 then [] else [' ']) ++ label) 0
             label := (if u = 0 then [] else [' ']) ++ label
             ellipsisStarted := false } := by
  unfold newCyclingChars
  rw [clampChars_of_lt h]
  have h0 : (((min u 120 : ℕ) : Int) = 0) = (u = 0) := by
    apply propext
    omega
  rw [if_neg (by omega), if_neg (by omega)]
  simp only [h0, Int.toNat_natCast]

theorem newCyclingChars_inv {u : ℕ} {label : List Char} {kI : ℕ → Fin 8}
    {kL : ℕ → Fin 5} {st : Int} {c : cyclingChars}
    (h : newCyclingChars u label kI kL st = some c) :
    0 ≤ clampChars u ∧
    c = { start := st
          chars := (List.range (clampChars u).toNat).map (mkPlaceholder kI)
            ++ mkLabelChars kI kL (clampChars u).toNat
                 ((if clampChars u = 0 then [] else [' ']) ++ label) 0
          label := (if clampChars u = 0 then [] else [' ']) ++ label
          ellipsisStarted := false } := by
  simp only [newCyclingChars] at h
  by_cases hn : clampChars u < 0
  · exfalso
    by_cases hm : clampChars u
        + ((((if clampChars u = 0 then [] else [' ']) ++ label).length : ℕ) : Int) < 0
    · rw [if_pos hm] at h
      exact Option.noConfusion h
    · rw [if_neg hm, if_pos hn] at h
      exact Option.noConfusion h
  · have hL := Int.natCast_nonneg
      (((if clampChars u = 0 then [] else [' ']) ++ label).length)
    rw [if_neg (by omega), if_neg hn, Option.some_inj] at h
    exact ⟨by omega, h.symm⟩

theorem countP_neg_placeholders (kI : ℕ → Fin 8) (m : ℕ) :
    ((List.range m).map (mkPlaceholder kI)).countP
      (fun ch => decide (ch.finalValue < 0)) = m := by
  rw [List.countP_map]
  have : ((fun ch => decide (ch.finalValue < 0)) ∘ mkPlaceholder kI) = fun _ => true := by
    funext i
    simp [mkPlaceholder]
  rw [this]
  simp

theorem countP_neg_mkLabelChars (kI : ℕ → Fin 8) (kL : ℕ → Fin 5) (base : ℕ)
    (l : List Char) (i : ℕ) :
    (mkLabelChars kI kL base l i).countP (fun ch => decide (ch.finalValue < 0)) = 0 := by
  rw [List.countP_eq_zero]
  intro ch hch
  simpa using mem_mkLabelChars hch

/-- C5 counterexample: at the requested count 2^63 (a value of the unsigned
count type), the Go `int` conversion wraps to -2^63 and
`make([]cyclingChar, n+len(label))` panics, so no placeholder characters are
built at all — the claimed "for every requested count" clamping fails. -/
theorem c5_counterexample :
    newCyclingChars (2 ^ 63) ("Loading".toList) oracle8 oracle5 0 = none := by
  decide

/-- C5 (amended): for every requested count below 2^63 (so that the Go
`int` conversion is value-preserving), construction succeeds and the number
of forever-cycling placeholder characters built (the characters carrying the
negative cycle-forever sentinel) equals `min requested 120`; in particular a
requested count of 500 yields exactly 120. For counts at or above 2^63 the
conversion wraps negative and construction panics. -/
theorem c5_theorem (u : ℕ) (label : List Char) (kI : ℕ → Fin 8) (kL : ℕ → Fin 5)
    (st : Int) (h : u < 2 ^ 63) :
    ∃ c, newCyclingChars u label kI kL st = some c
      ∧ c.chars.countP (fun ch => decide (ch.finalValue < 0)) = min u 120 := by
  refine ⟨_, newCyclingChars_of_lt h label kI kL st, ?_⟩
  rw [List.countP_append, countP_neg_placeholders, countP_neg_mkLabelChars,
    Nat.add_zero]

/-- C5 witness: requesting 500 placeholder characters with label "Loading"
builds exactly 120 of them. -/
theorem c5_witness :
    (500 : ℕ) < 2 ^ 63
    ∧ ∃ c, newCyclingChars 500 ("Loading".toList) oracle8 oracle5 0 = some c
        ∧ c.chars.countP (fun ch => decide (ch.finalValue < 0)) = 120 := by
  refine ⟨by norm_num, ?_⟩
  have h := c5_theorem 500 ("Loading".toList) oracle8 oracle5 0 (by norm_num)
  simpa using h

/-- C8 counterexample: at the requested count 2^64 - 1 (the maximum of the
unsigned count type), the `int` conversion yields -1; the slice is made with
length 2, the placeholder loop runs zero times, and the first label write
`c.chars[0 + (-1)]` panics with an out-of-range index — construction is not
infallible over the full range of the unsigned count type. -/
theorem c8_counterexample :
    newCyclingChars (2 ^ 64 - 1) ("Go".toList) oracle8 oracle5 0 = none := by
  decide

/-- C8 (amended): construction returns normally, with out-of-range counts
clamped rather than rejected, for every requested count below 2^63 and every
label; for counts at or above 2^63 the Go `int` conversion wraps negative
and construction panics (negative `make` length or negative slice index).
All other modelled operations (`state`, `updateChar`, tick stepping) are
total functions. -/
theorem c8_theorem (u : ℕ) (label : List Char) (kI : ℕ → Fin 8) (kL : ℕ → Fin 5)
    (st : Int) (h : u < 2 ^ 63) :
    (newCyclingChars u label kI kL st).isSome = true := by
  rw [newCyclingChars_of_lt h label kI kL st]
  rfl

/-- C8 witness: construction succeeds at the in-range count 121 (clamped)
with an empty label. -/
theorem c8_witness :
    (121 : ℕ) < 2 ^ 63 ∧ (newCyclingChars 121 [] oracle8 oracle5 0).isSome = true :=
  ⟨by norm_num, c8_theorem 121 [] oracle8 oracle5 0 (by norm_num)⟩

/-- C6 (confirmed): construction with requested count 0 and label "Loading"
yields exactly 7 characters, one per rune, with no leading separator; and in
general, for every successful construction the stored label begins with the
separator rune exactly when the clamped count is nonzero. -/
theorem c6_theorem :
    (∀ (kI : ℕ → Fin 8) (kL : ℕ → Fin 5) (st : Int),
        (newCyclingChars 0 ("Loading".toList) kI kL st).map (fun c => c.chars.length)
          = some 7)
    ∧ (∀ (u : ℕ) (label : List Char) (kI : ℕ → Fin 8) (kL : ℕ → Fin 5) (st : Int)
        (c : cyclingChars), newCyclingChars u label kI kL st = some c →
        (clampChars u = 0 → c.label = label) ∧ (clampChars u ≠ 0 → c.label = ' ' :: label)) := by
  constructor
  · intro kI kL st
    rw [newCyclingChars_of_lt (by norm_num) ("Loading".toList) kI kL st]
    simp [length_mkLabelChars]
  · intro u label kI kL st c h
    obtain ⟨-, rfl⟩ := newCyclingChars_inv h
    constructor
    · intro h0
      simp [h0]
    · intro h0
      simp [h0]

/-- C6 witness: requested count 0 with label "Loading" gives 7 characters,
and requested count 2 prepends the separator rune to label "a". -/
theorem c6_witness :
    (newCyclingChars 0 ("Loading".toList) oracle8 oracle5 0).map (fun c => c.chars.length)
        = some 7
    ∧ clampChars 2 ≠ 0
    ∧ (newCyclingChars 2 ['a'] oracle8 oracle5 0).map (fun c => c.label)
        = some (' ' :: ['a']) := by
  refine ⟨c6_theorem.1 oracle8 oracle5 0, by decide, ?_⟩
  rcases hEq : newCyclingChars 2 ['a'] oracle8 oracle5 0 with _ | c
  · have hs : (newCyclingChars 2 ['a'] oracle8 oracle5 0).isSome = true := by decide
    rw [hEq] at hs
    exact absurd hs (by simp)
  · have hl := (c6_theorem.2 2 ['a'] oracle8 oracle5 0 c hEq).2 (by decide)
    simp [hl]

/-- C9 (confirmed): a placeholder character (cycle-forever sentinel
`finalValue = -1`) is never in End-of-life state; consequently, for every
constructed controller and every instant, the End-of-life count over the
whole character sequence equals the count over the label suffix alone. -/
theorem c9_theorem :
    (∀ (ch : cyclingChar) (start now : Int), ch.finalValue = -1 →
        state ch start now ≠ charEndOfLifeState)
    ∧ (∀ (u : ℕ) (label : List Char) (kI : ℕ → Fin 8) (kL : ℕ → Fin 5) (st : Int)
        (c : cyclingChars), newCyclingChars u label kI kL st = some c → ∀ now : Int,
        countEOL c.chars c.start now
          = countEOL (c.chars.drop (c.chars.length - c.label.length)) c.start now) := by
  have hph : ∀ (ch : cyclingChar) (start now : Int), ch.finalValue = -1 →
      state ch start now ≠ charEndOfLifeState := by
    intro ch start now hfv
    exact state_ne_eol_of_neg start now (by omega)
  refine ⟨hph, ?_⟩
  intro u label kI kL st c h now
  obtain ⟨-, rfl⟩ := newCyclingChars_inv h
  simp only [List.length_append, List.length_map, List.length_range,
    length_mkLabelChars, Nat.add_sub_cancel]
  rw [List.drop_left' (by simp)]
  unfold countEOL
  rw [List.countP_append, List.countP_eq_zero.mpr, Nat.zero_add]
  intro ch hch
  rw [List.mem_map] at hch
  obtain ⟨i, _, rfl⟩ := hch
  simpa using hph (mkPlaceholder kI i) _ now rfl

/-- C9 witness: the concrete placeholder character is not End-of-life long
after its delay, and a concrete constructed controller has equal counts. -/
theorem c9_witness :
    (chNeg.finalValue = -1 ∧ state chNeg 0 99 ≠ charEndOfLifeState)
    ∧ (newCyclingChars 1 ['G'] oracle8 oracle5 0).map
        (fun c => decide (countEOL c.chars c.start 99
          = countEOL (c.chars.drop (c.chars.length - c.label.length)) c.start 99))
        = some true := by
  refine ⟨⟨rfl, c9_theorem.1 chNeg 0 99 rfl⟩, ?_⟩
  rcases hEq : newCyclingChars 1 ['G'] oracle8 oracle5 0 with _ | c
  · have hs : (newCyclingChars 1 ['G'] oracle8 oracle5 0).isSome = true := by decide
    rw [hEq] at hs
    exact absurd hs (by simp)
  · have hc := c9_theorem.2 1 ['G'] oracle8 oracle5 0 c hEq 99
    simp [hc]

/-- updateChars: the first loop of the `stepCharsMsg` branch of
`cyclingChars.Update`: every character's `currentValue` is recomputed, the
character at position `i` consuming the random draw `ks i`. -/
def updateChars (start now : Int) (ks : ℕ → Fin charRunes.length) :
    List cyclingChar → ℕ → List cyclingChar
  | [], _ => []
  | ch :: rest, i => updateChar start now (ks i) ch :: updateChars start now ks rest (i + 1)

/-- stepTick: the whole `stepCharsMsg` branch of `cyclingChars.Update` at
instant `now`: recompute all characters, then, if the ellipsis has not yet
started and the End-of-life count over the (updated) characters equals the
stored label length, set `ellipsisStarted` and emit the ellipsis-start
command. The returned `Bool` is whether that command was emitted. -/
def stepTick (now : Int) (ks : ℕ → Fin charRunes.length) (c : cyclingChars) :
    cyclingChars × Bool :=
  if c.ellipsisStarted then
    ({ c with chars := updateChars c.start now ks c.chars 0 }, false)
  else if countEOL (updateChars c.start now ks c.chars 0) c.start now = c.label.length then
    ({ c with chars := updateChars c.start now ks c.chars 0, ellipsisStarted := true }, true)
  else
    ({ c with chars := updateChars c.start now ks c.chars 0 }, false)

/-- run: the controller driven through a list of ticks (each with its
instant and its per-position random draws), collecting the per-tick
command-emission flags. -/
def run : cyclingChars → List (Int × (ℕ → Fin charRunes.length)) → cyclingChars × List Bool
  | c, [] => (c, [])
  | c, t :: ts =>
    ((run (stepTick t.1 t.2 c).1 ts).1,
      (stepTick t.1 t.2 c).2 :: (run (stepTick t.1 t.2 c).1 ts).2)

/-- Inv: the structural invariant construction establishes: the characters
carrying a non-negative `finalValue` (the label characters, separator
included; placeholders carry the negative sentinel) are exactly as many as
the stored label runes. -/
def Inv (c : cyclingChars) : Prop :=
  c.chars.countP (fun ch => decide (0 ≤ ch.finalValue)) = c.label.length

/-- allLabelEOL: every label character (every character that is not a
cycle-forever placeholder) is in End-of-life state at instant `now`. -/
def allLabelEOL (c : cyclingChars) (now : Int) : Prop :=
  ∀ ch ∈ c.chars, 0 ≤ ch.finalValue → state ch c.start now = charEndOfLifeState

/-- eolCond: the trigger condition as the code computes it: the End-of-life
count over all characters equals the stored label length. -/
def eolCond (c : cyclingChars) (now : Int) : Prop :=
  countEOL c.chars c.start now = c.label.length

instance (c : cyclingChars) (now : Int) : Decidable (eolCond c now) :=
  inferInstanceAs (Decidable (countEOL c.chars c.start now = c.label.length))

/-- tick0: a concrete tick used as a `getD` default and in evaluations. -/
def tick0 : Int × (ℕ → Fin charRunes.length) := (0, fun _ => kZ)

/-- cEmpty: the controller with no characters and an empty label. -/
def cEmpty : cyclingChars := { start := 0, chars := [], label := [], ellipsisStarted := false }

theorem countP_updateChars (p : cyclingChar → Bool)
    (hp : ∀ (start now : Int) (k : Fin charRunes.length) (ch : cyclingChar),
      p (updateChar start now k ch) = p ch)
    (start now : Int) (ks : ℕ → Fin charRunes.length) (l : List cyclingChar) (i : ℕ) :
    (updateChars start now ks l i).countP p = l.countP p := by
  induction l generalizing i with
  | nil => rfl
  | cons ch rest ih => simp [updateChars, List.countP_cons, hp, ih]

theorem forall_mem_updateChars (Φ : cyclingChar → Prop)
    (hΦ : ∀ (start now : Int) (k : Fin charRunes.length) (ch : cyclingChar),
      Φ (updateChar start now k ch) ↔ Φ ch)
    (start now : Int) (ks : ℕ → Fin charRunes.length) (l : List cyclingChar) (i : ℕ) :
    (∀ ch ∈ updateChars start now ks l i, Φ ch) ↔ (∀ ch ∈ l, Φ ch) := by
  induction l generalizing i with
  | nil => simp [updateChars]
  | cons ch rest ih => simp [updateChars, hΦ, ih]

theorem eol_pos {ch : cyclingChar} {start now : Int}
    (h : state ch start now = charEndOfLifeState) : 0 < ch.finalValue := by
  unfold state at h
  split at h
  · exact absurd h (by simp)
  · split at h
    · next hcnd => exact hcnd.1
    · exact absurd h (by simp)

theorem countP_eq_countP_iff {α : Type} (p q : α → Bool) (l : List α)
    (hpq : ∀ x ∈ l, p x = true → q x = true) :
    (l.countP p = l.countP q) ↔ (∀ x ∈ l, q x = true → p x = true) := by
  induction l with
  | nil => simp
  | cons a l ih =>
    have hpa := hpq a (List.mem_cons_self a l)
    have hl : ∀ x ∈ l, p x = true → q x = true := fun x hx => hpq x (List.mem_cons_of_mem a hx)
    have hle : l.countP p ≤ l.countP q := List.countP_mono_left hl
    rw [List.countP_cons, List.countP_cons, List.forall_mem_cons]
    by_cases hp : p a = true
    · have hq : q a = true := hpa hp
      rw [if_pos hp, if_pos hq, Nat.add_right_cancel_iff, ih hl]
      constructor
      · intro h
        exact ⟨fun _ => hp, h⟩
      · rintro ⟨-, h⟩
        exact h
    · by_cases hq : q a = true
      · refine iff_of_false ?_ ?_
        · rw [if_neg hp, if_pos hq]
          omega
        · rintro ⟨h1, -⟩
          exact hp (h1 hq)
      · rw [if_neg hp, if_neg hq, Nat.add_zero, Nat.add_zero, ih hl]
        constructor
        · intro h
          exact ⟨fun hqa => absurd hqa hq, h⟩
        · exact fun h => h.2

theorem stepTick_start (now : Int) (ks : ℕ → Fin charRunes.length) (c : cyclingChars) :
    (stepTick now ks c).1.start = c.start := by
  unfold stepTick
  split_ifs <;> rfl

theorem stepTick_label (now : Int) (ks : ℕ → Fin charRunes.length) (c : cyclingChars) :
    (stepTick now ks c).1.label = c.label := by
  unfold stepTick
  split_ifs <;> rfl

theorem stepTick_chars (now : Int) (ks : ℕ → Fin charRunes.length) (c : cyclingChars) :
    (stepTick now ks c).1.chars = updateChars c.start now ks c.chars 0 := by
  unfold stepTick
  split_ifs <;> rfl

theorem countEOL_updateChars (start now : Int) (ks : ℕ → Fin charRunes.length)
    (l : List cyclingChar) (i : ℕ) (s2 n2 : Int) :
    countEOL (updateChars start now ks l i) s2 n2 = countEOL l s2 n2 :=
  countP_updateChars _ (fun st nw k ch => by rw [state_updateChar st nw k ch s2 n2]) start now ks l i

theorem stepTick_flag (now : Int) (ks : ℕ → Fin charRunes.length) (c : cyclingChars) :
    (stepTick now ks c).1.ellipsisStarted
      = (c.ellipsisStarted || decide (eolCond c now)) := by
  unfold stepTick eolCond
  rw [countEOL_updateChars]
  split_ifs with h1 h2
  · simp [h1]
  · simp [h1, h2]
  · simp [h1, h2]

theorem stepTick_emit (now : Int) (ks : ℕ → Fin charRunes.length) (c : cyclingChars) :
    (stepTick now ks c).2 = (!c.ellipsisStarted && decide (eolCond c now)) := by
  unfold stepTick eolCond
  rw [countEOL_updateChars]
  split_ifs with h1 h2
  · simp [h1]
  · simp [h1, h2]
  · simp [h1, h2]

theorem stepTick_flag_mono (now : Int) (ks : ℕ → Fin charRunes.length) (c : cyclingChars)
    (hc : c.ellipsisStarted = true) : (stepTick now ks c).1.ellipsisStarted = true := by
  rw [stepTick_flag, hc, Bool.true_or]

theorem Inv_stepTick {c : cyclingChars} (now : Int) (ks : ℕ → Fin charRunes.length)
    (hInv : Inv c) : Inv (stepTick now ks c).1 := by
  unfold Inv
  rw [stepTick_label, stepTick_chars,
    countP_updateChars _ (fun st nw k ch => by rw [updateChar_finalValue])]
  exact hInv

theorem allLabelEOL_stepTick (now : Int) (ks : ℕ → Fin charRunes.length) (c : cyclingChars)
    (τ : Int) : allLabelEOL (stepTick now ks c).1 τ ↔ allLabelEOL c τ := by
  unfold allLabelEOL
  rw [stepTick_start, stepTick_chars]
  exact forall_mem_updateChars _
    (fun st nw k ch => by rw [updateChar_finalValue, state_updateChar]) _ _ _ _ _

theorem eolCond_iff_allLabelEOL {c : cyclingChars} (now : Int) (hInv : Inv c) :
    eolCond c now ↔ allLabelEOL c now := by
  unfold eolCond countEOL
  rw [← hInv]
  rw [countP_eq_countP_iff _ _ c.chars (fun ch _ hch => by
    simpa using (eol_pos (by simpa using hch)).le)]
  unfold allLabelEOL
  constructor
  · intro h ch hch hfv
    simpa using h ch hch (by simpa using hfv)
  · intro h ch hch hfv
    simpa using h ch hch (by simpa using hfv)

theorem run_flag_true (c : cyclingChars) (hc : c.ellipsisStarted = true)
    (ts : List (Int × (ℕ → Fin charRunes.length))) :
    (run c ts).1.ellipsisStarted = true
      ∧ (run c ts).2 = List.replicate ts.length false := by
  induction ts generalizing c with
  | nil => exact ⟨hc, rfl⟩
  | cons t ts ih =>
    have hflag := stepTick_flag_mono t.1 t.2 c hc
    have hemit : (stepTick t.1 t.2 c).2 = false := by
      rw [stepTick_emit, hc]
      rfl
    obtain ⟨h1, h2⟩ := ih _ hflag
    exact ⟨h1, by simp [run, hemit, h2, List.replicate_succ]⟩

theorem getD_replicate_false : ∀ n i : ℕ, (List.replicate n false).getD i false = false
  | 0, _ => by simp
  | _ + 1, 0 => by simp [List.replicate_succ]
  | n + 1, i + 1 => by
    rw [List.replicate_succ, List.getD_cons_succ]
    exact getD_replicate_false n i

/-- C4 (confirmed): from any controller state satisfying the construction
invariant with the ellipsis not yet started, along every tick sequence: the
ellipsis-start command is emitted at tick `i` exactly when every label
character (excluding placeholders) is End-of-life at tick `i` and at no
earlier tick — so the false→true transition happens exactly once, on the
first such tick; `ellipsisStarted` ends true exactly when some tick
satisfied the condition; and a true `ellipsisStarted` is never reset by a
tick. -/
theorem c4_theorem (c0 : cyclingChars) (hInv : Inv c0) (h0 : c0.ellipsisStarted = false)
    (ticks : List (Int × (ℕ → Fin charRunes.length))) :
    (∀ i, i < ticks.length →
      ((run c0 ticks).2.getD i false = true ↔
        (allLabelEOL c0 (ticks.getD i tick0).1
          ∧ ∀ j, j < i → ¬ allLabelEOL c0 (ticks.getD j tick0).1)))
    ∧ ((run c0 ticks).1.ellipsisStarted = true ↔
        ∃ i, i < ticks.length ∧ allLabelEOL c0 (ticks.getD i tick0).1)
    ∧ (∀ (c : cyclingChars) (now : Int) (ks : ℕ → Fin charRunes.length),
        c.ellipsisStarted = true → (stepTick now ks c).1.ellipsisStarted = true) := by
  induction ticks generalizing c0 with
  | nil =>
    refine ⟨fun i hi => absurd hi (by simp), ?_, fun c now ks hc => stepTick_flag_mono now ks c hc⟩
    show c0.ellipsisStarted = true ↔ _
    rw [h0]
    simp
  | cons t ts ih =>
    have hcnd := eolCond_iff_allLabelEOL (c := c0) t.1 hInv
    by_cases hc : allLabelEOL c0 t.1
    · have hemit : (stepTick t.1 t.2 c0).2 = true := by
        rw [stepTick_emit, h0]
        simp [hcnd.mpr hc]
      have hflag : (stepTick t.1 t.2 c0).1.ellipsisStarted = true := by
        rw [stepTick_flag]
        simp [hcnd.mpr hc]
      obtain ⟨hf, hrep⟩ := run_flag_true _ hflag ts
      refine ⟨?_, ?_, fun c now ks hcc => stepTick_flag_mono now ks c hcc⟩
      · intro i hi
        cases i with
        | zero =>
          refine iff_of_true (by simp [run, hemit]) ⟨hc, by omega⟩
        | succ i' =>
          have hL : (run c0 (t :: ts)).2.getD (i' + 1) false = false := by
            simp only [run, List.getD_cons_succ, hrep]
            exact getD_replicate_false ts.length i'
          rw [hL]
          refine iff_of_false (by simp) ?_
          rintro ⟨-, hall⟩
          exact hall 0 (Nat.succ_pos i') hc
      · have hL : (run c0 (t :: ts)).1.ellipsisStarted = true := by
          simp [run, hf]
        exact iff_of_true hL ⟨0, by simp, hc⟩
    · have hcond : ¬ eolCond c0 t.1 := fun hcd => hc (hcnd.mp hcd)
      have hemit : (stepTick t.1 t.2 c0).2 = false := by
        rw [stepTick_emit, h0]
        simp [hcond]
      have hflag : (stepTick t.1 t.2 c0).1.ellipsisStarted = false := by
        rw [stepTick_flag, h0]
        simp [hcond]
      have hEOL := allLabelEOL_stepTick t.1 t.2 c0
      obtain ⟨ih1, ih2, -⟩ := ih (stepTick t.1 t.2 c0).1 (Inv_stepTick t.1 t.2 hInv) hflag
      refine ⟨?_, ?_, fun c now ks hcc => stepTick_flag_mono now ks c hcc⟩
      · intro i hi
        cases i with
        | zero =>
          have hL : (run c0 (t :: ts)).2.getD 0 false = false := by
            simp [run, hemit]
          rw [hL]
          exact iff_of_false (by simp) (fun hR => hc hR.1)
        | succ i' =>
          have hL : (run c0 (t :: ts)).2.getD (i' + 1) false
              = (run (stepTick t.1 t.2 c0).1 ts).2.getD i' false := by
            simp [run]
          have hi' : i' < ts.length := by simpa using hi
          rw [hL, ih1 i' hi']
          constructor
          · rintro ⟨ha, hb⟩
            refine ⟨(hEOL _).mp ha, ?_⟩
            intro j hj
            cases j with
            | zero => simpa using hc
            | succ j' =>
              rw [List.getD_cons_succ]
              intro hx
              exact hb j' (by omega) ((hEOL _).mpr hx)
          · rintro ⟨ha, hb⟩
            refine ⟨(hEOL _).mpr (by simpa using ha), ?_⟩
            intro j hj hx
            exact hb (j + 1) (by omega) (by
              rw [List.getD_cons_succ]
              exact (hEOL _).mp hx)
      · have hL : (run c0 (t :: ts)).1 = (run (stepTick t.1 t.2 c0).1 ts).1 := by
          simp [run]
        rw [hL, ih2]
        constructor
        · rintro ⟨i, hi, ha⟩
          refine ⟨i + 1, ?_, by
            rw [List.getD_cons_succ]
            exact (hEOL _).mp ha⟩
          simp only [List.length_cons]
          omega
        · rintro ⟨i, hi, ha⟩
          cases i with
          | zero => exact absurd (by simpa using ha) hc
          | succ i' =>
            rw [List.getD_cons_succ] at ha
            simp only [List.length_cons] at hi
            exact ⟨i', by omega, (hEOL _).mpr ha⟩

/-- C4 witness: from the empty controller (empty label, flag down), the very
first tick satisfies the (vacuous) all-label-End-of-life condition, the
command is emitted on it, and the flag ends up true. -/
theorem c4_witness :
    Inv cEmpty ∧ cEmpty.ellipsisStarted = false
    ∧ (run cEmpty [tick0]).2.getD 0 false = true
    ∧ (run cEmpty [tick0]).1.ellipsisStarted = true := by
  have h := c4_theorem cEmpty rfl rfl [tick0]
  have hall : allLabelEOL cEmpty (([tick0].getD 0 tick0)).1 := by
    intro ch hch
    exact absurd hch (List.not_mem_nil ch)
  refine ⟨rfl, rfl, ?_, ?_⟩
  · exact (h.1 0 (by simp)).mpr ⟨hall, by omega⟩
  · exact h.2.1.mpr ⟨0, by simp, hall⟩

/-- makeGradientRamp: the gradient generator. The two endpoint colors are
parsed from the fixed hex constants and `BlendLuv` belongs to the external
color-interpolation library, so colors stay an abstract type `α` and the
blend an abstract function; `float64(i)/float64(length)` is modelled by
exact division on ℚ. -/
def makeGradientRamp {α : Type} (blendLuv : α → α → ℚ → α) (startColor endColor : α)
    (length : ℕ) : List α :=
  (List.range length).map fun (i : ℕ) => blendLuv startColor endColor ((i : ℚ) / (length : ℚ))

/-- blendLin: a concrete linear interpolation standing in for the external
blend in concrete evaluations; it satisfies the endpoint law `blend a b 0 = a`. -/
def blendLin : ℚ → ℚ → ℚ → ℚ := fun x y t => x + t * (y - x)

/-- C7 (confirmed): the gradient generator is deterministic (a pure function
of its arguments): it returns exactly `L` colors, the `i`-th obtained at
blend parameter `i / L`, and for `L = 1` the single color is the blend at
parameter 0, which is the first endpoint color for any blend satisfying the
interpolation endpoint law. -/
theorem c7_theorem {α : Type} (blend : α → α → ℚ → α) (a b : α) (L : ℕ) :
    (makeGradientRamp blend a b L).length = L
    ∧ (∀ i, i < L → (makeGradientRamp blend a b L).getD i a
        = blend a b ((i : ℚ) / (L : ℚ)))
    ∧ (L = 1 → makeGradientRamp blend a b L = [blend a b 0])
    ∧ ((∀ x y, blend x y 0 = x) → L = 1 → makeGradientRamp blend a b L = [a]) := by
  have hone : ∀ h1 : L = 1, makeGradientRamp blend a b L = [blend a b 0] := by
    intro h1
    subst h1
    show [blend a b ((0 : ℚ) / (1 : ℚ))] = [blend a b 0]
    norm_num
  refine ⟨by rw [makeGradientRamp, List.length_map, List.length_range], ?_, hone, ?_⟩
  · intro i hi
    rw [makeGradientRamp, List.getD_eq_getElem _ _
      (by rw [List.length_map, List.length_range]; exact hi)]
    simp only [List.getElem_map, List.getElem_range]
  · intro hb h1
    rw [hone h1, hb]

/-- C7 witness: with the linear blend, endpoints 3 and 5, and length 1, the
gradient is the one-element list holding the first endpoint. -/
theorem c7_witness :
    (∀ x y : ℚ, blendLin x y 0 = x)
    ∧ makeGradientRamp blendLin (3 : ℚ) 5 1 = [(3 : ℚ)] := by
  have hb : ∀ x y : ℚ, blendLin x y 0 = x := by
    intro x y
    simp [blendLin]
  exact ⟨hb, (c7_theorem blendLin 3 5 1).2.2.2 hb rfl⟩

/-- runeLen: the UTF-8 encoded size in bytes of one rune (what Go's string
encoding uses; Lean chars and Go string-derived runes are both Unicode
scalar values). -/
def runeLen (c : Char) : ℕ :=
  if c.toNat < 128 then 1 else if c.toNat < 2048 then 2
  else if c.toNat < 65536 then 3 else 4

/-- goStrLen: Go `len(str)`, the UTF-8 byte length of the string. -/
def goStrLen (s : List Char) : ℕ := (s.map runeLen).sum

/-- idxChars: the rune accesses `runes[i]` for `i = 0 .. n-1` performed in
order by the gradient-text loop; `none` models the index-out-of-range
panic at the first `i ≥ len(runes)`. -/
def idxChars (s : List Char) : ℕ → Option (List Char)
  | 0 => some []
  | n + 1 => (idxChars s n).bind (fun l => (s.get? n).map (fun c => l ++ [c]))

/-- makeGradientText: the helper styling arbitrary text. `Sum.inl` is the
raw input returned below the minimum size; `Sum.inr` is the styled output,
each glyph paired with its blend parameter `i / len(str)` from
`makeGradientRamp` (the base style and the ANSI rendering belong to the
external styling library). The loop ranges over `len(str)` — the BYTE
length — while indexing into the rune slice, so `none` (panic) occurs when
the byte length exceeds the rune count. -/
def makeGradientText (s : List Char) : Option (List Char ⊕ List (ℚ × Char)) :=
  if goStrLen s < 3 then some (Sum.inl s)
  else (idxChars s (goStrLen s)).map (fun cs =>
    Sum.inr (cs.mapIdx (fun i c => ((i : ℚ) / ((goStrLen s : ℕ) : ℚ), c))))

theorem one_le_runeLen (c : Char) : 1 ≤ runeLen c := by
  unfold runeLen
  split_ifs <;> omega

theorem length_le_goStrLen (s : List Char) : s.length ≤ goStrLen s := by
  induction s with
  | nil => simp [goStrLen]
  | cons c rest ih =>
    have h1 := one_le_runeLen c
    simp only [goStrLen, List.map_cons, List.sum_cons, List.length_cons] at ih ⊢
    omega

theorem isSome_idxChars (s : List Char) : ∀ n : ℕ, (idxChars s n).isSome ↔ n ≤ s.length := by
  intro n
  induction n with
  | zero => simp [idxChars]
  | succ n ih =>
    rw [idxChars]
    cases h1 : idxChars s n with
    | none =>
      have hn : ¬ n ≤ s.length := by
        rw [← ih, h1]
        simp
      refine iff_of_false (by simp) (by omega)
    | some l =>
      have hn : n ≤ s.length := by
        rw [← ih, h1]
        simp
      cases h2 : s.get? n with
      | none =>
        have h3 : s.length ≤ n := List.get?_eq_none.mp h2
        refine iff_of_false (by simp) (by omega)
      | some c =>
        have h3 : n < s.length := by
          by_contra hcon
          rw [List.get?_eq_none.mpr (by omega)] at h2
          exact Option.noConfusion h2
        refine iff_of_true (by simp) (by omega)

/-- C10 counterexample: the two-rune string "£a" has byte length 3 (≥ the
minimum size), so the loop runs i = 0, 1, 2 and the access `runes[2]` is out
of range: `makeGradientText` panics on this multibyte input — it is not
total. -/
theorem c10_counterexample :
    goStrLen ['£', 'a'] = 3 ∧ (['£', 'a'] : List Char).length = 2
    ∧ makeGradientText ['£', 'a'] = none := by
  refine ⟨by decide, by decide, by decide⟩

/-- C10 (amended): `makeGradientText` returns the input unchanged exactly
when the byte length is below the minimum threshold 3; at byte length ≥ 3 it
returns without an out-of-range access if and only if the byte length equals
the rune count (i.e. the string is all single-byte runes) — on any other
string (multibyte runes, byte length ≥ 3) the rune indexing panics. -/
theorem c10_theorem (s : List Char) :
    ((makeGradientText s).isSome ↔ (goStrLen s < 3 ∨ goStrLen s = s.length))
    ∧ ((makeGradientText s = some (Sum.inl s)) ↔ goStrLen s < 3) := by
  have hlen : s.length ≤ goStrLen s := length_le_goStrLen s
  unfold makeGradientText
  by_cases h3 : goStrLen s < 3
  · rw [if_pos h3]
    exact ⟨iff_of_true (by simp) (Or.inl h3), iff_of_true rfl h3⟩
  · rw [if_neg h3]
    constructor
    · rcases hx : idxChars s (goStrLen s) with _ | cs
      · have hn : ¬ goStrLen s ≤ s.length := by
          rw [← isSome_idxChars, hx]
          simp
        refine iff_of_false (by simp) (by omega)
      · have hn : goStrLen s ≤ s.length := by
          rw [← isSome_idxChars, hx]
          simp
        refine iff_of_true (by simp) (Or.inr (by omega))
    · constructor
      · intro h
        rcases hx : idxChars s (goStrLen s) with _ | cs
        · rw [hx] at h
          exact absurd h (by simp)
        · rw [hx] at h
          simp at h
      · intro h
        exact absurd h h3

/-- C10 witness: the all-ASCII string "abc" (byte length = rune count = 3)
is styled without panic, and the short string "ab" is returned unchanged. -/
theorem c10_witness :
    (makeGradientText ("abc".toList)).isSome = true
    ∧ makeGradientText ("ab".toList) = some (Sum.inl ("ab".toList)) := by
  refine ⟨?_, ?_⟩
  · exact (c10_theorem ("abc".toList)).1.mpr (Or.inr (by decide))
  · exact (c10_theorem ("ab".toList)).2.mpr (by decide)

end Mods
